import Mathlib

/-!
Verification of the renaming-rule resolution and batch-execution engine of the
Control-Archivos repository (a client-side batch file-renaming tool).

The source exposes several near-duplicate variants of the same workflow.
Following the design document, the definitions below embed the superset,
most-complete behavior: name derivation with the find/replace step
(src/utils/fileUtils.ts, the variant around lines 170-182), the
filter/sort pipeline with the size clause (the variant around lines
628-663), the limit step (lines 154-158), and the batch executor with the
collision-skip check (lines 686-723).  JavaScript strings are modelled as
Lean `String`s and the string primitives used by the source
(`toLowerCase`, `includes`, `startsWith`, `lastIndexOf`, `slice`,
`substring`, `split`, `join`, `trim`, string truthiness and `||`) are
embedded explicitly below.
-/

namespace ControlArchivos

/-- Per-item lifecycle status (src/types.ts: `status` field). -/
inductive Status where
  | pending
  | processing
  | success
  | error
  | skipped
deriving DecidableEq, Repr

/-- Terminal statuses: `success`, `error`, `skipped`. -/
def Status.isTerminal : Status → Bool
  | .success => true
  | .error => true
  | .skipped => true
  | _ => false

/-- Does the first list start with the second (JS `String.startsWith` on chars)? -/
def startsWithL : List Char → List Char → Bool
  | _, [] => true
  | [], _ :: _ => false
  | a :: as, b :: bs => a == b && startsWithL as bs

/-- Does the first list contain the second as a contiguous run (JS `String.includes`)? -/
def containsL : List Char → List Char → Bool
  | [], needle => needle.isEmpty
  | h :: t, needle => startsWithL (h :: t) needle || containsL t needle

/-- Index of the last occurrence of a character (JS `String.lastIndexOf`). -/
def lastIndexOfC (ch : Char) (l : List Char) : Option Nat :=
  match l.reverse.findIdx? (· == ch) with
  | none => none
  | some j => some (l.length - 1 - j)

/-- src/utils/fileUtils.ts lines 17-19:
`filename.slice((filename.lastIndexOf(".") - 1 >>> 0) + 2)`.
When the name has no dot, `lastIndexOf` yields `-1` and the `>>> 0` trick makes
the slice start past the end, so the result is `""`; a dot at index `0`
(e.g. `".gitignore"`) likewise yields `""`; otherwise the result is the text
after the last dot. -/
def getExtension (filename : String) : String :=
  match lastIndexOfC '.' filename.data with
  | none => ""
  | some 0 => ""
  | some i => String.mk (filename.data.drop (i + 1))

/-- src/utils/fileUtils.ts lines 24-27: everything before the last dot, or the
whole name when there is no dot. -/
def getBaseName (filename : String) : String :=
  match lastIndexOfC '.' filename.data with
  | none => filename
  | some i => String.mk (filename.data.take i)

/-- JS `String.toLowerCase`, modelled per character. -/
def toLowerStr (s : String) : String := String.mk (s.data.map Char.toLower)

/-- JS `a.includes(b)`. -/
def jsIncludes (s sub : String) : Bool := containsL s.data sub.data

/-- JS `a.startsWith(b)`. -/
def jsStartsWith (s p : String) : Bool := startsWithL s.data p.data

/-- Characters stripped by JS `String.trim` (the ones relevant here). -/
def jsWhitespace (c : Char) : Bool := c == ' ' || c == '\t' || c == '\n' || c == '\r'

/-- JS `String.trim`: strip leading and trailing whitespace. -/
def trimStr (s : String) : String :=
  String.mk (((s.data.dropWhile jsWhitespace).reverse.dropWhile jsWhitespace).reverse)

/-- Index of the first position where `sep` occurs as a contiguous run. -/
def firstMatchIdx (sep : List Char) : List Char → Option Nat
  | [] => if sep.isEmpty then some 0 else none
  | h :: t =>
    if startsWithL (h :: t) sep then some 0
    else (firstMatchIdx sep t).map (· + 1)

/-- Fueled worker for `splitOnL`; the fuel is always sufficient for a
non-empty separator (each step consumes at least one character). -/
def splitOnFuel (sep : List Char) : Nat → List Char → List (List Char)
  | 0, l => [l]
  | Nat.succ fuel, l =>
    match firstMatchIdx sep l with
    | none => [l]
    | some i => l.take i :: splitOnFuel sep fuel (l.drop (i + sep.length))

/-- JS `String.split` with a non-empty string separator: the maximal list of
chunks between non-overlapping occurrences of `sep`, found left to right. -/
def splitOnL (sep l : List Char) : List (List Char) :=
  splitOnFuel sep (l.length + 1) l

/-- JS `Array.join` with a string separator. -/
def joinWithL (sep : List Char) : List (List Char) → List Char
  | [] => []
  | [x] => x
  | x :: y :: xs => x ++ sep ++ joinWithL sep (y :: xs)

/-- src/utils/fileUtils.ts line 177: `base.split(globalConfig.find).join(globalConfig.replace)` —
replaces every non-overlapping occurrence of `fnd` (literal, left to right).
Only called with a non-empty `fnd`. -/
def replaceAll (s fnd rep : String) : String :=
  String.mk (joinWithL rep.data (splitOnL fnd.data s.data))

/-- src/types.ts (superset variant, src/unnamed/part_000): one discovered
source file and its rename configuration.  The JS field `prefix` is renamed
`prefixStr` (`prefix` is a Lean keyword); the opaque `handle` is dropped and
the read capability is passed to the batch executor keyed by `id`. -/
structure FileItem where
  id : String
  originalName : String
  size : Nat
  lastModified : Int
  type : String
  customBaseName : String
  prefixStr : String
  suffix : String
  extension : String
  status : Status
  errorMessage : Option String
deriving DecidableEq, Repr

/-- src/unnamed/part_000: global defaults (`prefix` renamed `prefixStr`). -/
structure GlobalConfig where
  prefixStr : String
  suffix : String
  extension : String
  overwrite : Bool
  find : String
  replace : String
deriving DecidableEq, Repr

/-- Sort selector (src/unnamed/part_000 `SortType`). -/
inductive SortType where
  | name_asc
  | name_desc
  | date_asc
  | date_desc
  | size_asc
  | size_desc
deriving DecidableEq, Repr

/-- src/unnamed/part_000 `FilterState`: `minSize` is in KB; `limit` is a
number or the empty string (modelled `Option Int`, `none` for `''`). -/
structure FilterState where
  search : String
  dateStart : String
  dateEnd : String
  minSize : Nat
  sort : SortType
  limit : Option Int
deriving DecidableEq, Repr

/-- JS `a || b` on strings: `a` when non-empty (truthy), else `b`. -/
def jsOrS (a b : String) : String := if a = "" then b else a

/-- src/utils/fileUtils.ts lines 170-182 (`getFinalName`): resolve per-item
overrides against global defaults, apply the global find/replace to the base
name, and append the extension with a dot unless it already starts with one. -/
def getFinalName (g : GlobalConfig) (f : FileItem) : String :=
  let p := jsOrS f.prefixStr g.prefixStr
  let s := jsOrS f.suffix g.suffix
  let ext := jsOrS f.extension (jsOrS g.extension (getExtension f.originalName))
  let base := if g.find = "" then f.customBaseName else replaceAll f.customBaseName g.find g.replace
  let dot := if ext = "" then "" else if jsStartsWith ext "." then "" else "."
  p ++ base ++ s ++ dot ++ ext

/-- Modelled from the spec (§4.1), for the refinement claim about
`getFinalName`: the final name is
`effectivePrefix ++ base ++ effectiveSuffix ++ dot ++ effectiveExtension`,
where each effective field is the item's when non-empty else the global one,
the extension falls back to the original name's extension, the base has every
non-overlapping occurrence of `find` replaced by `replace` (only when `find`
is non-empty), and the dot is present exactly when the effective extension is
non-empty and does not already start with a dot. -/
def deriveNameSpec (g : GlobalConfig) (f : FileItem) : String :=
  let ep := if f.prefixStr ≠ "" then f.prefixStr else g.prefixStr
  let es := if f.suffix ≠ "" then f.suffix else g.suffix
  let ee :=
    if f.extension ≠ "" then f.extension
    else if g.extension ≠ "" then g.extension
    else getExtension f.originalName
  let base :=
    if g.find ≠ "" then replaceAll f.customBaseName g.find g.replace
    else f.customBaseName
  let dot := if ee ≠ "" ∧ jsStartsWith ee "." = false then "." else ""
  ep ++ base ++ es ++ dot ++ ee

/-- Claim C1: for every file item and global config, the derived final name
equals `effectivePrefix ++ base ++ effectiveSuffix ++ dot ++ effectiveExtension`
with the item-over-global resolution, the literal find/replace on the base,
and the conditional dot, exactly as the specification states. -/
theorem getFinalName_eq_spec (g : GlobalConfig) (f : FileItem) :
    getFinalName g f = deriveNameSpec g f := by
  unfold getFinalName deriveNameSpec jsOrS
  by_cases hp : f.prefixStr = "" <;>
  by_cases hs : f.suffix = "" <;>
  by_cases he : f.extension = "" <;>
  by_cases hg : g.extension = "" <;>
  by_cases hf : g.find = "" <;>
  simp only [hp, hs, he, hg, hf, if_true, if_false, ne_eq, not_true_eq_false,
    not_false_eq_true, ite_true, ite_false, decide_eq_true_eq] <;>
  · congr 1 <;> try rfl
    all_goals
      first
      | rfl
      | (rename_i h; cases h)
      | (split <;> simp_all [Bool.not_eq_true] <;> split <;> simp_all)

/-! ## Filter / Sort / Limit pipeline

`localeCompare` (locale-aware string comparison) and `new Date(string)`
(local-time date parsing) are ambient browser capabilities; they are passed
in as explicit function parameters `cmpName : String → String → Int` and
`parseDate : String → Int` (epoch milliseconds). -/

/-- src/utils/fileUtils.ts lines 628-639 (filter of `filteredFiles`):
case-insensitive substring search on the original name, size floor in KB
scaled by 1024, and an inclusive local-time date window; an empty date
string disables that bound (string truthiness). -/
def filterPred (parseDate : String → Int) (fs : FilterState) (f : FileItem) : Bool :=
  let matchesSearch := jsIncludes (toLowerStr f.originalName) (toLowerStr fs.search)
  let matchesSize := decide (fs.minSize * 1024 ≤ f.size)
  let matchesDate :=
    (decide (fs.dateStart = "") || decide (parseDate (fs.dateStart ++ "T00:00:00") ≤ f.lastModified)) &&
    (decide (fs.dateEnd = "") || decide (f.lastModified ≤ parseDate (fs.dateEnd ++ "T23:59:59")))
  matchesSearch && matchesSize && matchesDate

/-- src/utils/fileUtils.ts lines 132-140 (filter of the variant with
find/replace and limit): same as `filterPred` but without the size clause. -/
def filterPredV2 (parseDate : String → Int) (fs : FilterState) (f : FileItem) : Bool :=
  let matchesSearch := jsIncludes (toLowerStr f.originalName) (toLowerStr fs.search)
  let matchesDate :=
    (decide (fs.dateStart = "") || decide (parseDate (fs.dateStart ++ "T00:00:00") ≤ f.lastModified)) &&
    (decide (fs.dateEnd = "") || decide (f.lastModified ≤ parseDate (fs.dateEnd ++ "T23:59:59")))
  matchesSearch && matchesDate

/-- src/utils/fileUtils.ts lines 641-657 (the `result.sort` comparator):
negative means the first argument sorts earlier.  Name comparisons delegate
to the `localeCompare` capability. -/
def comparator (cmpName : String → String → Int) (st : SortType) (a b : FileItem) : Int :=
  match st with
  | .name_asc => cmpName a.originalName b.originalName
  | .name_desc => cmpName b.originalName a.originalName
  | .date_asc => a.lastModified - b.lastModified
  | .date_desc => b.lastModified - a.lastModified
  | .size_asc => (a.size : Int) - (b.size : Int)
  | .size_desc => (b.size : Int) - (a.size : Int)

/-- Insert `x` into `l` before the first element `y` with `c x y < 0`
(after every element the comparator does not order strictly after `x`). -/
def insertC (c : α → α → Int) (x : α) : List α → List α
  | [] => [x]
  | b :: l => if c x b < 0 then x :: b :: l else b :: insertC c x l

/-- JS `Array.prototype.sort` with comparator `c`: a stable sort placing `a`
before `b` when `c a b < 0`, realised as a left-to-right stable insertion
sort (ECMAScript requires the sort to be stable). -/
def sortByC (c : α → α → Int) (l : List α) : List α :=
  l.foldl (fun acc x => insertC c x acc) []

/-- src/utils/fileUtils.ts lines 628-660 (`filteredFiles` of the variant
without the limit feature): filter then stable sort. -/
def filteredFiles (cmpName : String → String → Int) (parseDate : String → Int)
    (fs : FilterState) (files : List FileItem) : List FileItem :=
  sortByC (comparator cmpName fs.sort) (files.filter (filterPred parseDate fs))

/-- src/utils/fileUtils.ts lines 154-157: `if (typeof filters.limit === 'number'
&& filters.limit > 0) result = result.slice(0, filters.limit)`. -/
def applyLimit (limit : Option Int) (l : List FileItem) : List FileItem :=
  match limit with
  | none => l
  | some n => if 0 < n then l.take n.toNat else l

/-- src/utils/fileUtils.ts lines 132-158 (`filteredFiles` of the variant with
the limit feature): filter (no size clause in this variant), stable sort,
then truncate to the first `limit` elements when `limit` is a positive
number. -/
def visibleV2 (cmpName : String → String → Int) (parseDate : String → Int)
    (fs : FilterState) (files : List FileItem) : List FileItem :=
  applyLimit fs.limit (sortByC (comparator cmpName fs.sort) (files.filter (filterPredV2 parseDate fs)))

theorem mem_insertC (c : α → α → Int) (x y : α) (l : List α) :
    y ∈ insertC c x l ↔ y = x ∨ y ∈ l := by
  induction l with
  | nil => simp [insertC]
  | cons b t ih =>
    simp only [insertC]
    split
    · simp [List.mem_cons]
    · simp only [List.mem_cons, ih]
      tauto

theorem mem_sortByC (c : α → α → Int) (l : List α) (y : α) :
    y ∈ sortByC c l ↔ y ∈ l := by
  suffices h : ∀ (l acc : List α), y ∈ l.foldl (fun acc x => insertC c x acc) acc ↔ y ∈ acc ∨ y ∈ l by
    simpa [sortByC] using h l []
  intro l
  induction l with
  | nil => simp
  | cons b t ih =>
    intro acc
    simp only [List.foldl_cons, ih, mem_insertC, List.mem_cons]
    tauto

theorem containsL_nil (l : List Char) : containsL l [] = true := by
  cases l <;> simp [containsL, startsWithL, List.isEmpty]

/-- Claim C4: an item appears in the visible set iff it is in the collection
and satisfies the conjunction of the active filter clauses (case-insensitive
substring search on the original name, size ≥ minSize·1024, and the inclusive
date window, each bound disabled by an empty input); and when every clause is
unset the visible set keeps exactly the members of the collection. -/
theorem visible_membership_iff (cmpName : String → String → Int) (parseDate : String → Int)
    (fs : FilterState) (files : List FileItem) (f : FileItem) :
    (f ∈ filteredFiles cmpName parseDate fs files ↔
      f ∈ files ∧
        (jsIncludes (toLowerStr f.originalName) (toLowerStr fs.search) = true ∧
         fs.minSize * 1024 ≤ f.size ∧
         (fs.dateStart = "" ∨ parseDate (fs.dateStart ++ "T00:00:00") ≤ f.lastModified) ∧
         (fs.dateEnd = "" ∨ f.lastModified ≤ parseDate (fs.dateEnd ++ "T23:59:59")))) ∧
    (fs.search = "" → fs.minSize = 0 → fs.dateStart = "" → fs.dateEnd = "" →
      (f ∈ filteredFiles cmpName parseDate fs files ↔ f ∈ files)) := by
  have hmain : f ∈ filteredFiles cmpName parseDate fs files ↔
      f ∈ files ∧
        (jsIncludes (toLowerStr f.originalName) (toLowerStr fs.search) = true ∧
         fs.minSize * 1024 ≤ f.size ∧
         (fs.dateStart = "" ∨ parseDate (fs.dateStart ++ "T00:00:00") ≤ f.lastModified) ∧
         (fs.dateEnd = "" ∨ f.lastModified ≤ parseDate (fs.dateEnd ++ "T23:59:59"))) := by
    unfold filteredFiles
    rw [mem_sortByC, List.mem_filter]
    unfold filterPred
    simp only [Bool.and_eq_true, Bool.or_eq_true, decide_eq_true_eq]
    tauto
  refine ⟨hmain, fun h1 h2 h3 h4 => ?_⟩
  rw [hmain]
  simp [h1, h2, h3, h4, toLowerStr, jsIncludes, containsL_nil]

/-- Claim C9: the limit is applied after filtering and sorting; a positive
limit truncates the visible set to its first `n` elements (so its length is
at most `n`), while an unset, zero or negative limit leaves the full
filtered-and-sorted sequence untouched. -/
theorem limit_after_filter_sort (cmpName : String → String → Int) (parseDate : String → Int)
    (fs : FilterState) (files : List FileItem) :
    (∀ n : Int, fs.limit = some n → 0 < n →
      visibleV2 cmpName parseDate fs files =
        (sortByC (comparator cmpName fs.sort) (files.filter (filterPredV2 parseDate fs))).take n.toNat ∧
      (visibleV2 cmpName parseDate fs files).length ≤ n.toNat) ∧
    (fs.limit = none →
      visibleV2 cmpName parseDate fs files =
        sortByC (comparator cmpName fs.sort) (files.filter (filterPredV2 parseDate fs))) ∧
    (∀ n : Int, fs.limit = some n → n ≤ 0 →
      visibleV2 cmpName parseDate fs files =
        sortByC (comparator cmpName fs.sort) (files.filter (filterPredV2 parseDate fs))) := by
  refine ⟨fun n hn hpos => ?_, fun hn => ?_, fun n hn hneg => ?_⟩
  · constructor
    · simp [visibleV2, applyLimit, hn, hpos]
    · simp only [visibleV2, applyLimit, hn, hpos, if_true]
      exact (List.length_take _ _).le.trans (min_le_left _ _)
  · simp [visibleV2, applyLimit, hn]
  · simp [visibleV2, applyLimit, hn, not_lt.mpr hneg]

/-- Witness for C9 at a concrete input: a two-element collection with
`limit = 1` is truncated to one element. -/
theorem limit_after_filter_sort_witness :
    (visibleV2 (fun _ _ => 0) (fun _ => 0)
        ⟨"", "", "", 0, .size_asc, some 1⟩
        [⟨"a", "a.txt", 1, 0, "", "a", "", "", "", .pending, none⟩,
         ⟨"b", "b.txt", 2, 0, "", "b", "", "", "", .pending, none⟩] =
      (sortByC (comparator (fun _ _ => 0) SortType.size_asc)
        ([⟨"a", "a.txt", 1, 0, "", "a", "", "", "", .pending, none⟩,
          ⟨"b", "b.txt", 2, 0, "", "b", "", "", "", .pending, none⟩].filter
            (filterPredV2 (fun _ => 0) ⟨"", "", "", 0, .size_asc, some 1⟩))).take 1 ∧
      (visibleV2 (fun _ _ => 0) (fun _ => 0)
        ⟨"", "", "", 0, .size_asc, some 1⟩
        [⟨"a", "a.txt", 1, 0, "", "a", "", "", "", .pending, none⟩,
         ⟨"b", "b.txt", 2, 0, "", "b", "", "", "", .pending, none⟩]).length ≤ (1 : Int).toNat) :=
  (limit_after_filter_sort (fun _ _ => 0) (fun _ => 0)
    ⟨"", "", "", 0, .size_asc, some 1⟩ _).1 1 rfl (by decide)

/-- Witness for C4 at a concrete input: with every clause unset, a singleton
collection's item is visible. -/
theorem visible_membership_iff_witness :
    (⟨"a", "a.txt", 1, 5, "", "a", "", "", "", .pending, none⟩ : FileItem) ∈
      filteredFiles (fun _ _ => 0) (fun _ => 0) ⟨"", "", "", 0, .name_asc, none⟩
        [⟨"a", "a.txt", 1, 5, "", "a", "", "", "", .pending, none⟩] :=
  ((visible_membership_iff (fun _ _ => 0) (fun _ => 0) ⟨"", "", "", 0, .name_asc, none⟩
      [⟨"a", "a.txt", 1, 5, "", "a", "", "", "", .pending, none⟩] _).2
    rfl rfl rfl rfl).mpr (by simp)

/-! ## Stability of the sort

`Array.prototype.sort` is required by ECMAScript to be stable; the embedding
`sortByC` is proved stable below for any comparator that encodes a total
preorder (sign-antisymmetric and transitive on the non-positive side) — the
numeric comparators of the source satisfy this outright, and `localeCompare`
satisfies it by its contract. -/

theorem cmp_slt_trans {c : α → α → Int}
    (hA : ∀ x y, c y x ≤ 0 ↔ 0 ≤ c x y)
    (hT : ∀ x y z, c x y ≤ 0 → c y z ≤ 0 → c x z ≤ 0)
    {x y z : α} (h1 : c x y < 0) (h2 : c y z ≤ 0) : c x z < 0 := by
  by_contra h
  push_neg at h
  have hzx : c z x ≤ 0 := (hA x z).mpr h
  have hyx : c y x ≤ 0 := hT y z x h2 hzx
  have : 0 ≤ c x y := (hA x y).mp hyx
  omega

theorem insertC_pairwise {c : α → α → Int}
    (hA : ∀ x y, c y x ≤ 0 ↔ 0 ≤ c x y)
    (hT : ∀ x y z, c x y ≤ 0 → c y z ≤ 0 → c x z ≤ 0)
    (x : α) (l : List α) (h : l.Pairwise (fun a b => c a b ≤ 0)) :
    (insertC c x l).Pairwise (fun a b => c a b ≤ 0) := by
  induction l with
  | nil => simp [insertC]
  | cons b t ih =>
    rcases List.pairwise_cons.mp h with ⟨hb, ht⟩
    simp only [insertC]
    split
    · rename_i hlt
      refine List.pairwise_cons.mpr ⟨?_, h⟩
      intro y hy
      rcases List.mem_cons.mp hy with rfl | hy
      · omega
      · exact hT x b y (by omega) (hb y hy)
    · rename_i hge
      refine List.pairwise_cons.mpr ⟨?_, ih ht⟩
      intro y hy
      rcases (mem_insertC c x y t).mp hy with rfl | hy
      · exact (hA y b).mpr (by omega)
      · exact hb y hy

theorem sublist_insertC (c : α → α → Int) (x : α) (l : List α) :
    l.Sublist (insertC c x l) := by
  induction l with
  | nil => simp [insertC]
  | cons b t ih =>
    simp only [insertC]
    split
    · exact (List.sublist_cons_self x (b :: t))
    · exact List.Sublist.cons₂ b ih

theorem insertC_pair_after {c : α → α → Int}
    (hA : ∀ x y, c y x ≤ 0 ↔ 0 ≤ c x y)
    (hT : ∀ x y z, c x y ≤ 0 → c y z ≤ 0 → c x z ≤ 0)
    {a b : α} (hab : c a b = 0) (l : List α)
    (hp : l.Pairwise (fun x y => c x y ≤ 0)) (ha : a ∈ l) :
    List.Sublist [a, b] (insertC c b l) := by
  have hba : c b a = 0 := by
    have h1 : c b a ≤ 0 := (hA a b).mpr (by omega)
    have h2 : 0 ≤ c b a := by
      have := (hA b a).mp (by omega)
      omega
    omega
  induction l with
  | nil => cases ha
  | cons y t ih =>
    rcases List.pairwise_cons.mp hp with ⟨hy, ht⟩
    simp only [insertC]
    split
    · rename_i hlt
      exfalso
      rcases List.mem_cons.mp ha with rfl | ha
      · omega
      · have : c b a < 0 := cmp_slt_trans hA hT hlt (hy a ha)
        omega
    · rename_i hge
      rcases List.mem_cons.mp ha with rfl | ha
      · exact List.Sublist.cons₂ a
          (List.singleton_sublist.mpr ((mem_insertC c b b t).mpr (Or.inl rfl)))
      · exact List.Sublist.cons y (ih ht ha)

theorem sortAux_pair {c : α → α → Int}
    (hA : ∀ x y, c y x ≤ 0 ↔ 0 ≤ c x y)
    (hT : ∀ x y z, c x y ≤ 0 → c y z ≤ 0 → c x z ≤ 0)
    {a b : α} (hab : c a b = 0) :
    ∀ (rem acc : List α), acc.Pairwise (fun x y => c x y ≤ 0) →
      (List.Sublist [a, b] rem ∨ (a ∈ acc ∧ b ∈ rem) ∨ List.Sublist [a, b] acc) →
      List.Sublist [a, b] (rem.foldl (fun acc x => insertC c x acc) acc) := by
  intro rem
  induction rem with
  | nil =>
    intro acc hp hinv
    rcases hinv with h | ⟨_, h⟩ | h
    · simp at h
    · cases h
    · simpa using h
  | cons x t ih =>
    intro acc hp hinv
    simp only [List.foldl_cons]
    have hp' := insertC_pairwise hA hT x acc hp
    apply ih (insertC c x acc) hp'
    rcases hinv with h | ⟨haacc, hb⟩ | h
    · cases h with
      | cons _ h' => exact Or.inl h'
      | cons₂ _ h' =>
        exact Or.inr (Or.inl ⟨(mem_insertC c a a acc).mpr (Or.inl rfl),
          List.singleton_sublist.mp h'⟩)
    · rcases List.mem_cons.mp hb with rfl | hb
      · exact Or.inr (Or.inr (insertC_pair_after hA hT hab acc hp haacc))
      · exact Or.inr (Or.inl ⟨(mem_insertC c x a acc).mpr (Or.inr haacc), hb⟩)
    · exact Or.inr (Or.inr (h.trans (sublist_insertC c x acc)))

theorem sortByC_pair_stable {c : α → α → Int}
    (hA : ∀ x y, c y x ≤ 0 ↔ 0 ≤ c x y)
    (hT : ∀ x y z, c x y ≤ 0 → c y z ≤ 0 → c x z ≤ 0)
    {a b : α} (hab : c a b = 0) (l : List α) (h : List.Sublist [a, b] l) :
    List.Sublist [a, b] (sortByC c l) :=
  sortAux_pair hA hT hab l [] (by simp) (Or.inl h)

theorem comparator_antisym {cmpName : String → String → Int}
    (hA : ∀ x y, cmpName y x ≤ 0 ↔ 0 ≤ cmpName x y) (st : SortType) :
    ∀ x y, comparator cmpName st y x ≤ 0 ↔ 0 ≤ comparator cmpName st x y := by
  intro x y
  cases st <;> simp only [comparator]
  · exact hA x.originalName y.originalName
  · exact hA y.originalName x.originalName
  all_goals omega

theorem comparator_trans {cmpName : String → String → Int}
    (hT : ∀ x y z, cmpName x y ≤ 0 → cmpName y z ≤ 0 → cmpName x z ≤ 0) (st : SortType) :
    ∀ x y z, comparator cmpName st x y ≤ 0 → comparator cmpName st y z ≤ 0 →
      comparator cmpName st x z ≤ 0 := by
  intro x y z h1 h2
  cases st <;> simp only [comparator] at *
  · exact hT _ _ _ h1 h2
  · exact hT _ _ _ h2 h1
  all_goals omega

/-- Claim C8: the visible-set sort is stable — whenever two items of the
backing collection compare equal under the comparator selected by the sort
key (with `localeCompare` assumed sign-antisymmetric and transitive, as its
contract requires) and both pass the filter, their relative order in the
visible set equals their relative order in the backing collection. -/
theorem sort_stable (cmpName : String → String → Int)
    (hA : ∀ x y, cmpName y x ≤ 0 ↔ 0 ≤ cmpName x y)
    (hT : ∀ x y z, cmpName x y ≤ 0 → cmpName y z ≤ 0 → cmpName x z ≤ 0)
    (parseDate : String → Int) (fs : FilterState) (files : List FileItem)
    (a b : FileItem)
    (hab : comparator cmpName fs.sort a b = 0)
    (horder : List.Sublist [a, b] files)
    (hfa : filterPred parseDate fs a = true)
    (hfb : filterPred parseDate fs b = true) :
    List.Sublist [a, b] (filteredFiles cmpName parseDate fs files) := by
  have hfilter : List.Sublist [a, b] (files.filter (filterPred parseDate fs)) := by
    have := horder.filter (filterPred parseDate fs)
    simpa [hfa, hfb] using this
  exact sortByC_pair_stable (comparator_antisym hA fs.sort)
    (comparator_trans hT fs.sort) hab _ hfilter

/-- Witness for C8 at a concrete input: two equally-sized items keep their
collection order under a size sort. -/
theorem sort_stable_witness :
    List.Sublist
      [⟨"a", "b.txt", 3, 0, "", "a", "", "", "", .pending, none⟩,
       ⟨"b", "a.txt", 3, 0, "", "b", "", "", "", .pending, none⟩]
      (filteredFiles (fun _ _ => 0) (fun _ => 0) ⟨"", "", "", 0, .size_asc, none⟩
        [⟨"a", "b.txt", 3, 0, "", "a", "", "", "", .pending, none⟩,
         ⟨"b", "a.txt", 3, 0, "", "b", "", "", "", .pending, none⟩]) :=
  sort_stable (fun _ _ => 0) (fun _ _ => Iff.rfl) (fun _ _ _ h _ => h)
    (fun _ => 0) ⟨"", "", "", 0, .size_asc, none⟩ _ _ _
    (by decide) (List.Sublist.refl _) (by decide) (by decide)

/-! ## Paste-mapping assignor and scan -/

/-- src/utils/fileUtils.ts line 162:
`pastedNames.split('\n').filter(n => n.trim() !== '')`. -/
def splitPasted (pasted : String) : List String :=
  ((splitOnL ['\n'] pasted.data).map String.mk).filter (fun n => decide (trimStr n ≠ ""))

/-- src/utils/fileUtils.ts lines 161-168 (`applyPastedNames`): for each item
of the collection, look its id up positionally in the visible-set snapshot;
when found at index `p` and a `p`-th pasted name exists, replace the item's
`customBaseName` by that name trimmed; otherwise leave the item unchanged.
(A kept pasted name is never the empty string, so the JS truthiness test
`names[idxInView]` coincides with existence.) -/
def applyPastedNames (pasted : String) (visible files : List FileItem) : List FileItem :=
  let names := splitPasted pasted
  files.map (fun f =>
    match visible.findIdx? (fun ff => decide (ff.id = f.id)) with
    | none => f
    | some p =>
      match names[p]? with
      | some nm => { f with customBaseName := trimStr nm }
      | none => f)

/-- Claim C5: applying pasted names keeps the collection's length; an item
found at position `p` of the visible snapshot (by id) with a `p`-th
surviving pasted line gets `customBaseName := trim(names[p])`; an item absent
from the visible snapshot is unchanged; a visible item beyond the pasted
list's length is unchanged. -/
theorem apply_pasted_names_spec (pasted : String) (visible files : List FileItem) :
    (applyPastedNames pasted visible files).length = files.length ∧
    (∀ (i p : Nat) (f : FileItem) (nm : String), files[i]? = some f →
      visible.findIdx? (fun ff => decide (ff.id = f.id)) = some p →
      (splitPasted pasted)[p]? = some nm →
      (applyPastedNames pasted visible files)[i]? =
        some { f with customBaseName := trimStr nm }) ∧
    (∀ (i : Nat) (f : FileItem), files[i]? = some f →
      visible.findIdx? (fun ff => decide (ff.id = f.id)) = none →
      (applyPastedNames pasted visible files)[i]? = some f) ∧
    (∀ (i p : Nat) (f : FileItem), files[i]? = some f →
      visible.findIdx? (fun ff => decide (ff.id = f.id)) = some p →
      (splitPasted pasted).length ≤ p →
      (applyPastedNames pasted visible files)[i]? = some f) := by
  refine ⟨by simp [applyPastedNames], fun i p f nm hf hidx hnm => ?_,
    fun i f hf hidx => ?_, fun i p f hf hidx hlen => ?_⟩
  · simp [applyPastedNames, List.getElem?_map, hf, hidx, hnm]
  · simp [applyPastedNames, List.getElem?_map, hf, hidx]
  · have : (splitPasted pasted)[p]? = none := List.getElem?_eq_none hlen
    simp [applyPastedNames, List.getElem?_map, hf, hidx, this]

/-- Witness for C5 at a concrete input: pasting two lines onto a
two-item visible set renames the first item, and an item outside the
visible set is untouched. -/
theorem apply_pasted_names_spec_witness :
    (applyPastedNames " x \ny" [⟨"a", "a.txt", 1, 0, "", "a", "", "", "", .pending, none⟩]
        [⟨"a", "a.txt", 1, 0, "", "a", "", "", "", .pending, none⟩,
         ⟨"c", "c.txt", 1, 0, "", "c", "", "", "", .pending, none⟩])[0]? =
      some { (⟨"a", "a.txt", 1, 0, "", "a", "", "", "", .pending, none⟩ : FileItem) with
        customBaseName := trimStr " x " } ∧
    (applyPastedNames " x \ny" [⟨"a", "a.txt", 1, 0, "", "a", "", "", "", .pending, none⟩]
        [⟨"a", "a.txt", 1, 0, "", "a", "", "", "", .pending, none⟩,
         ⟨"c", "c.txt", 1, 0, "", "c", "", "", "", .pending, none⟩])[1]? =
      some ⟨"c", "c.txt", 1, 0, "", "c", "", "", "", .pending, none⟩ :=
  ⟨(apply_pasted_names_spec " x \ny" _ _).2.1 0 0 _ " x " (by decide) (by decide) (by decide),
   (apply_pasted_names_spec " x \ny" _ _).2.2.1 1 _ (by decide) (by decide)⟩

/-- One entry yielded by the directory-enumeration capability
(name, size, last-modified, MIME-ish type). -/
structure RawFile where
  name : String
  size : Nat
  lastModified : Int
  type : String
deriving DecidableEq, Repr

/-- src/utils/fileUtils.ts lines 596-611 (one iteration of `scanFiles`):
a fresh item starts pending with `customBaseName` the original base name,
empty per-item prefix/suffix, and `extension` the original name's extension. -/
def scanItem (uuid : String) (r : RawFile) : FileItem :=
  { id := uuid
    originalName := r.name
    size := r.size
    lastModified := r.lastModified
    type := r.type
    customBaseName := getBaseName r.name
    prefixStr := ""
    suffix := ""
    extension := getExtension r.name
    status := .pending
    errorMessage := none }

/-- Worker for `scanFiles`, threading the entry index used to draw fresh
ids from the id supply (`crypto.randomUUID`). -/
def scanFilesGo (uuid : Nat → String) : Nat → List RawFile → List FileItem
  | _, [] => []
  | i, r :: rest => scanItem (uuid i) r :: scanFilesGo uuid (i + 1) rest

/-- src/utils/fileUtils.ts lines 592-616 (`scanFiles`): build one pending
item per enumerated file, ids drawn from the id supply. -/
def scanFiles (uuid : Nat → String) (rs : List RawFile) : List FileItem :=
  scanFilesGo uuid 0 rs

theorem scanFilesGo_getElem? (uuid : Nat → String) (k : Nat) (rs : List RawFile) (i : Nat) :
    (scanFilesGo uuid k rs)[i]? = (rs[i]?).map (scanItem (uuid (k + i))) := by
  induction rs generalizing k i with
  | nil => simp [scanFilesGo]
  | cons r rest ih =>
    cases i with
    | zero => simp [scanFilesGo]
    | succ j =>
      simp only [scanFilesGo, List.getElem?_cons_succ, ih (k + 1) j]
      have : k + 1 + j = k + (j + 1) := by omega
      rw [this]

/-- Claim C10: every freshly scanned item's `extension` field is initialized
to the extension of its original name (so it is empty only when
`getExtension` of the name is empty), and whenever that extension is
non-empty the global extension override has no effect on the derived final
name. -/
theorem scan_extension_shadows_global (uuid : Nat → String) (rs : List RawFile)
    (i : Nat) (r : RawFile) (hr : rs[i]? = some r) :
    ∃ item, (scanFiles uuid rs)[i]? = some item ∧
      item.extension = getExtension r.name ∧
      (getExtension r.name ≠ "" →
        ∀ (g : GlobalConfig) (e : String),
          getFinalName { g with extension := e } item = getFinalName g item) := by
  refine ⟨scanItem (uuid i) r, ?_, rfl, fun hne g e => ?_⟩
  · rw [scanFiles, scanFilesGo_getElem?, hr]
    simp
  · simp [getFinalName, jsOrS, scanItem, hne]

/-- Witness for C10 at a concrete input: the item scanned from
"photo.jpg" carries extension "jpg" and ignores a global "png" override. -/
theorem scan_extension_shadows_global_witness :
    ∃ item, (scanFiles (fun _ => "id0") [⟨"photo.jpg", 9, 0, "image/jpeg"⟩])[0]? = some item ∧
      item.extension = getExtension "photo.jpg" ∧
      (getExtension "photo.jpg" ≠ "" →
        ∀ (g : GlobalConfig) (e : String),
          getFinalName { g with extension := e } item = getFinalName g item) :=
  scan_extension_shadows_global (fun _ => "id0") [⟨"photo.jpg", 9, 0, "image/jpeg"⟩]
    0 ⟨"photo.jpg", 9, 0, "image/jpeg"⟩ (by decide)

/-! ## Batch executor

src/utils/fileUtils.ts lines 686-723 (`executeBatch`, the variant with the
collision-skip check).  The destination directory is modelled as an
association list from file name to content (an opaque `Nat`); the
file-read capability is `readF : String → Except String Nat` keyed by item
id (the per-item `handle`), and write/commit failures are modelled by
`wfail : String → Nat → Option String` (the failure message, if any, of
creating-writing-closing the given name with the given content).  Per item
the executor computes the final name, reads the source, skips when the name
exists and overwrite is disallowed, otherwise writes, and converts any
failure into a per-item `error` status. -/

structure BatchState where
  files : List FileItem
  dest : List (String × Nat)
deriving DecidableEq, Repr

/-- `updatedFiles[idx] = g(updatedFiles[idx])` where
`idx = updatedFiles.findIndex(uf => uf.id === fid)`: update the first item
carrying the given id, if any. -/
def setById (fid : String) (g : FileItem → FileItem) : List FileItem → List FileItem
  | [] => []
  | f :: rest => if f.id = fid then g f :: rest else f :: setById fid g rest

/-- The first item carrying the given id. -/
def findById (l : List FileItem) (fid : String) : Option FileItem :=
  l.find? (fun f => decide (f.id = fid))

/-- Existence check `destHandle.getFileHandle(name, {create:false})`:
the content stored in the destination directory under the given name. -/
def destLookup : List (String × Nat) → String → Option Nat
  | [], _ => none
  | (m, v) :: rest, n => if m = n then some v else destLookup rest n

/-- Create-or-truncate write followed by commit: replace the binding when the
name exists, append it otherwise. -/
def destWrite : List (String × Nat) → String → Nat → List (String × Nat)
  | [], n, c => [(n, c)]
  | (m, v) :: rest, n, c =>
    if m = n then (m, c) :: rest else (m, v) :: destWrite rest n c

/-- One iteration of the `for (const f of filteredFiles)` loop of
`executeBatch`: mark the item processing, compute its final name, read the
source (failure → `error`), check the destination for a collision
(collision with overwrite disallowed → `skipped` with message "Ya existe",
no write), then write and commit (failure → `error`, success → `success`). -/
def stepItem (cfg : GlobalConfig) (readF : String → Except String Nat)
    (wfail : String → Nat → Option String) (s : BatchState) (f : FileItem) : BatchState :=
  let files1 := setById f.id (fun u => { u with status := .processing }) s.files
  let finalName := getFinalName cfg f
  match readF f.id with
  | .error msg =>
    ⟨setById f.id (fun u => { u with status := .error, errorMessage := some msg }) files1, s.dest⟩
  | .ok c =>
    if (destLookup s.dest finalName).isSome && !cfg.overwrite then
      ⟨setById f.id (fun u => { u with status := .skipped, errorMessage := some "Ya existe" }) files1,
        s.dest⟩
    else
      match wfail finalName c with
      | some msg =>
        ⟨setById f.id (fun u => { u with status := .error, errorMessage := some msg }) files1, s.dest⟩
      | none =>
        ⟨setById f.id (fun u => { u with status := .success }) files1,
          destWrite s.dest finalName c⟩

/-- `executeBatch`: sequentially process every item of the visible set
captured at batch start, in order. -/
def runBatch (cfg : GlobalConfig) (readF : String → Except String Nat)
    (wfail : String → Nat → Option String) (visible : List FileItem)
    (s : BatchState) : BatchState :=
  visible.foldl (stepItem cfg readF wfail) s

/-! ### Helper lemmas about the batch state -/

theorem setById_length (fid : String) (g : FileItem → FileItem) (l : List FileItem) :
    (setById fid g l).length = l.length := by
  induction l with
  | nil => rfl
  | cons f rest ih =>
    simp only [setById]
    split <;> simp [ih]

theorem getElem?_setById_ne (fid : String) (g : FileItem → FileItem) (l : List FileItem)
    (i : Nat) (x : FileItem) (hx : l[i]? = some x) (hne : x.id ≠ fid) :
    (setById fid g l)[i]? = some x := by
  induction l generalizing i with
  | nil => simp at hx
  | cons f rest ih =>
    cases i with
    | zero =>
      simp only [List.getElem?_cons_zero, Option.some.injEq] at hx
      subst hx
      simp only [setById]
      rw [if_neg hne]
      simp
    | succ j =>
      simp only [List.getElem?_cons_succ] at hx
      simp only [setById]
      split
      · simpa using hx
      · simpa using ih j hx

theorem findById_setById_self (fid : String) (g : FileItem → FileItem) (l : List FileItem)
    (hg : ∀ u, (g u).id = u.id) :
    findById (setById fid g l) fid = (findById l fid).map g := by
  induction l with
  | nil => rfl
  | cons f rest ih =>
    simp only [setById, findById]
    by_cases h : f.id = fid
    · rw [if_pos h]
      rw [List.find?_cons_of_pos _ (by simp [hg, h]), List.find?_cons_of_pos _ (by simp [h])]
      rfl
    · rw [if_neg h]
      rw [List.find?_cons_of_neg _ (by simp [h]), List.find?_cons_of_neg _ (by simp [h])]
      exact ih

theorem findById_setById_ne (fid j : String) (g : FileItem → FileItem) (l : List FileItem)
    (hg : ∀ u, (g u).id = u.id) (hne : j ≠ fid) :
    findById (setById fid g l) j = findById l j := by
  induction l with
  | nil => rfl
  | cons f rest ih =>
    simp only [setById, findById]
    by_cases h : f.id = fid
    · rw [if_pos h]
      have hfj : ¬ f.id = j := fun hc => hne (hc ▸ h)
      rw [List.find?_cons_of_neg _ (by simp [hg, hfj]), List.find?_cons_of_neg _ (by simp [hfj])]
    · rw [if_neg h]
      by_cases hj : f.id = j
      · rw [List.find?_cons_of_pos _ (by simp [hj]), List.find?_cons_of_pos _ (by simp [hj])]
      · rw [List.find?_cons_of_neg _ (by simp [hj]), List.find?_cons_of_neg _ (by simp [hj])]
        exact ih

theorem stepItem_findById_ne (cfg : GlobalConfig) (readF : String → Except String Nat)
    (wfail : String → Nat → Option String) (s : BatchState) (f : FileItem)
    (j : String) (hne : j ≠ f.id) :
    findById (stepItem cfg readF wfail s f).files j = findById s.files j := by
  unfold stepItem
  cases readF f.id with
  | error msg =>
    simp only
    rw [findById_setById_ne _ _ _ _ (by intro u; rfl) hne,
      findById_setById_ne _ _ _ _ (by intro u; rfl) hne]
  | ok c =>
    simp only
    split
    · rw [findById_setById_ne _ _ _ _ (by intro u; rfl) hne,
        findById_setById_ne _ _ _ _ (by intro u; rfl) hne]
    · cases wfail (getFinalName cfg f) c with
      | some msg =>
        simp only
        rw [findById_setById_ne _ _ _ _ (by intro u; rfl) hne,
          findById_setById_ne _ _ _ _ (by intro u; rfl) hne]
      | none =>
        simp only
        rw [findById_setById_ne _ _ _ _ (by intro u; rfl) hne,
          findById_setById_ne _ _ _ _ (by intro u; rfl) hne]

theorem stepItem_getElem?_ne (cfg : GlobalConfig) (readF : String → Except String Nat)
    (wfail : String → Nat → Option String) (s : BatchState) (f : FileItem)
    (i : Nat) (x : FileItem) (hx : s.files[i]? = some x) (hne : x.id ≠ f.id) :
    (stepItem cfg readF wfail s f).files[i]? = some x := by
  unfold stepItem
  cases readF f.id with
  | error msg =>
    exact getElem?_setById_ne _ _ _ _ _ (getElem?_setById_ne _ _ _ _ _ hx hne) hne
  | ok c =>
    simp only
    split
    · exact getElem?_setById_ne _ _ _ _ _ (getElem?_setById_ne _ _ _ _ _ hx hne) hne
    · cases wfail (getFinalName cfg f) c with
      | some msg =>
        exact getElem?_setById_ne _ _ _ _ _ (getElem?_setById_ne _ _ _ _ _ hx hne) hne
      | none =>
        exact getElem?_setById_ne _ _ _ _ _ (getElem?_setById_ne _ _ _ _ _ hx hne) hne

theorem stepItem_files_length (cfg : GlobalConfig) (readF : String → Except String Nat)
    (wfail : String → Nat → Option String) (s : BatchState) (f : FileItem) :
    (stepItem cfg readF wfail s f).files.length = s.files.length := by
  unfold stepItem
  cases readF f.id with
  | error msg => simp [setById_length]
  | ok c =>
    simp only
    split
    · simp [setById_length]
    · cases wfail (getFinalName cfg f) c <;> simp [setById_length]

theorem runBatch_cons (cfg : GlobalConfig) (readF : String → Except String Nat)
    (wfail : String → Nat → Option String) (f : FileItem) (v : List FileItem)
    (s : BatchState) :
    runBatch cfg readF wfail (f :: v) s = runBatch cfg readF wfail v (stepItem cfg readF wfail s f) :=
  rfl

theorem runBatch_append (cfg : GlobalConfig) (readF : String → Except String Nat)
    (wfail : String → Nat → Option String) (v w : List FileItem) (s : BatchState) :
    runBatch cfg readF wfail (v ++ w) s = runBatch cfg readF wfail w (runBatch cfg readF wfail v s) :=
  List.foldl_append ..

theorem runBatch_findById_notin (cfg : GlobalConfig) (readF : String → Except String Nat)
    (wfail : String → Nat → Option String) (v : List FileItem) (s : BatchState)
    (j : String) (hj : j ∉ v.map (·.id)) :
    findById (runBatch cfg readF wfail v s).files j = findById s.files j := by
  induction v generalizing s with
  | nil => rfl
  | cons f t ih =>
    simp only [List.map_cons, List.mem_cons, not_or] at hj
    rw [runBatch_cons, ih _ hj.2, stepItem_findById_ne _ _ _ _ _ _ hj.1]

theorem runBatch_getElem?_notin (cfg : GlobalConfig) (readF : String → Except String Nat)
    (wfail : String → Nat → Option String) (v : List FileItem) (s : BatchState)
    (i : Nat) (x : FileItem) (hx : s.files[i]? = some x) (hj : x.id ∉ v.map (·.id)) :
    (runBatch cfg readF wfail v s).files[i]? = some x := by
  induction v generalizing s with
  | nil => exact hx
  | cons f t ih =>
    simp only [List.map_cons, List.mem_cons, not_or] at hj
    rw [runBatch_cons]
    exact ih _ (stepItem_getElem?_ne _ _ _ _ _ _ _ hx hj.1) hj.2

theorem runBatch_files_length (cfg : GlobalConfig) (readF : String → Except String Nat)
    (wfail : String → Nat → Option String) (v : List FileItem) (s : BatchState) :
    (runBatch cfg readF wfail v s).files.length = s.files.length := by
  induction v generalizing s with
  | nil => rfl
  | cons f t ih => rw [runBatch_cons, ih, stepItem_files_length]

/-- Branch equation: a failing source read. -/
theorem stepItem_eq_error (cfg : GlobalConfig) (readF : String → Except String Nat)
    (wfail : String → Nat → Option String) (s : BatchState) (f : FileItem) (msg : String)
    (hr : readF f.id = .error msg) :
    stepItem cfg readF wfail s f =
      ⟨setById f.id (fun u => { u with status := .error, errorMessage := some msg })
        (setById f.id (fun u => { u with status := .processing }) s.files), s.dest⟩ := by
  unfold stepItem
  simp only [hr]

/-- Branch equation: collision with overwrite disallowed (condition form). -/
theorem stepItem_eq_skipC (cfg : GlobalConfig) (readF : String → Except String Nat)
    (wfail : String → Nat → Option String) (s : BatchState) (f : FileItem) (c : Nat)
    (hr : readF f.id = .ok c)
    (hcond : ((destLookup s.dest (getFinalName cfg f)).isSome && !cfg.overwrite) = true) :
    stepItem cfg readF wfail s f =
      ⟨setById f.id (fun u => { u with status := .skipped, errorMessage := some "Ya existe" })
        (setById f.id (fun u => { u with status := .processing }) s.files), s.dest⟩ := by
  unfold stepItem
  simp [hr, hcond]

/-- Branch equation: collision with overwrite disallowed. -/
theorem stepItem_eq_skip (cfg : GlobalConfig) (readF : String → Except String Nat)
    (wfail : String → Nat → Option String) (s : BatchState) (f : FileItem) (c : Nat)
    (hr : readF f.id = .ok c)
    (he : (destLookup s.dest (getFinalName cfg f)).isSome = true)
    (hov : cfg.overwrite = false) :
    stepItem cfg readF wfail s f =
      ⟨setById f.id (fun u => { u with status := .skipped, errorMessage := some "Ya existe" })
        (setById f.id (fun u => { u with status := .processing }) s.files), s.dest⟩ :=
  stepItem_eq_skipC cfg readF wfail s f c hr (by rw [he, hov]; rfl)

/-- Branch equation: write attempted and failed. -/
theorem stepItem_eq_werr (cfg : GlobalConfig) (readF : String → Except String Nat)
    (wfail : String → Nat → Option String) (s : BatchState) (f : FileItem) (c : Nat) (msg : String)
    (hr : readF f.id = .ok c)
    (hcond : ((destLookup s.dest (getFinalName cfg f)).isSome && !cfg.overwrite) = false)
    (hw : wfail (getFinalName cfg f) c = some msg) :
    stepItem cfg readF wfail s f =
      ⟨setById f.id (fun u => { u with status := .error, errorMessage := some msg })
        (setById f.id (fun u => { u with status := .processing }) s.files), s.dest⟩ := by
  unfold stepItem
  simp [hr, hcond, hw]

/-- Branch equation: write attempted and committed. -/
theorem stepItem_eq_write (cfg : GlobalConfig) (readF : String → Except String Nat)
    (wfail : String → Nat → Option String) (s : BatchState) (f : FileItem) (c : Nat)
    (hr : readF f.id = .ok c)
    (hcond : ((destLookup s.dest (getFinalName cfg f)).isSome && !cfg.overwrite) = false)
    (hw : wfail (getFinalName cfg f) c = none) :
    stepItem cfg readF wfail s f =
      ⟨setById f.id (fun u => { u with status := .success })
        (setById f.id (fun u => { u with status := .processing }) s.files),
        destWrite s.dest (getFinalName cfg f) c⟩ := by
  unfold stepItem
  simp [hr, hcond, hw]

/-- Processing an item rewrites its own entry by an id-preserving update
whose resulting status is terminal (`success`, `error` or `skipped`). -/
theorem stepItem_findById_self_map (cfg : GlobalConfig) (readF : String → Except String Nat)
    (wfail : String → Nat → Option String) (s : BatchState) (f : FileItem) :
    ∃ upd : FileItem → FileItem, (∀ u, (upd u).id = u.id) ∧
      findById (stepItem cfg readF wfail s f).files f.id = (findById s.files f.id).map upd ∧
      (∀ u, ((upd u).status).isTerminal = true) := by
  cases hread : readF f.id with
  | error msg =>
    refine ⟨fun u => { u with status := .error, errorMessage := some msg },
      fun u => rfl, ?_, fun u => rfl⟩
    rw [stepItem_eq_error cfg readF wfail s f msg hread]
    rw [findById_setById_self f.id
        (fun u => { u with status := .error, errorMessage := some msg }) _ (fun u => rfl),
      findById_setById_self f.id (fun u => { u with status := .processing }) _ (fun u => rfl),
      Option.map_map]
    rfl
  | ok c =>
    cases hcond : ((destLookup s.dest (getFinalName cfg f)).isSome && !cfg.overwrite) with
    | true =>
      refine ⟨fun u => { u with status := .skipped, errorMessage := some "Ya existe" },
        fun u => rfl, ?_, fun u => rfl⟩
      rw [stepItem_eq_skipC cfg readF wfail s f c hread hcond]
      rw [findById_setById_self f.id
          (fun u => { u with status := .skipped, errorMessage := some "Ya existe" }) _ (fun u => rfl),
        findById_setById_self f.id (fun u => { u with status := .processing }) _ (fun u => rfl),
        Option.map_map]
      rfl
    | false =>
      cases hw : wfail (getFinalName cfg f) c with
      | some msg =>
        refine ⟨fun u => { u with status := .error, errorMessage := some msg },
          fun u => rfl, ?_, fun u => rfl⟩
        rw [stepItem_eq_werr cfg readF wfail s f c msg hread hcond hw]
        rw [findById_setById_self f.id
            (fun u => { u with status := .error, errorMessage := some msg }) _ (fun u => rfl),
          findById_setById_self f.id (fun u => { u with status := .processing }) _ (fun u => rfl),
          Option.map_map]
        rfl
      | none =>
        refine ⟨fun u => { u with status := .success },
          fun u => rfl, ?_, fun u => rfl⟩
        rw [stepItem_eq_write cfg readF wfail s f c hread hcond hw]
        rw [findById_setById_self f.id
            (fun u => { u with status := .success }) _ (fun u => rfl),
          findById_setById_self f.id (fun u => { u with status := .processing }) _ (fun u => rfl),
          Option.map_map]
        rfl

theorem stepItem_presence (cfg : GlobalConfig) (readF : String → Except String Nat)
    (wfail : String → Nat → Option String) (s : BatchState) (f : FileItem) (j : String)
    (hp : (findById s.files j).isSome = true) :
    (findById (stepItem cfg readF wfail s f).files j).isSome = true := by
  by_cases hj : j = f.id
  · subst hj
    obtain ⟨upd, _, heq, _⟩ := stepItem_findById_self_map cfg readF wfail s f
    rw [heq]
    simpa using hp
  · rw [stepItem_findById_ne _ _ _ _ _ _ hj]
    exact hp

theorem runBatch_presence (cfg : GlobalConfig) (readF : String → Except String Nat)
    (wfail : String → Nat → Option String) (v : List FileItem) (s : BatchState) (j : String)
    (hp : (findById s.files j).isSome = true) :
    (findById (runBatch cfg readF wfail v s).files j).isSome = true := by
  induction v generalizing s with
  | nil => exact hp
  | cons g t ih => exact ih _ (stepItem_presence _ _ _ _ _ _ hp)

theorem stepItem_self_terminal (cfg : GlobalConfig) (readF : String → Except String Nat)
    (wfail : String → Nat → Option String) (s : BatchState) (f : FileItem)
    (hp : (findById s.files f.id).isSome = true) :
    ∃ u, findById (stepItem cfg readF wfail s f).files f.id = some u ∧
      u.status.isTerminal = true := by
  obtain ⟨upd, _, heq, hterm⟩ := stepItem_findById_self_map cfg readF wfail s f
  obtain ⟨u0, hu0⟩ := Option.isSome_iff_exists.mp hp
  exact ⟨upd u0, by rw [heq, hu0]; rfl, hterm u0⟩

theorem runBatch_visible_terminal (cfg : GlobalConfig) (readF : String → Except String Nat)
    (wfail : String → Nat → Option String) :
    ∀ (v : List FileItem) (s : BatchState) (f : FileItem), f ∈ v →
      (findById s.files f.id).isSome = true →
      ∃ u, findById (runBatch cfg readF wfail v s).files f.id = some u ∧
        u.status.isTerminal = true := by
  intro v
  induction v with
  | nil => intro s f hf; cases hf
  | cons g t ih =>
    intro s f hf hp
    rcases List.mem_cons.mp hf with rfl | hf
    · by_cases hgid : f.id ∈ t.map (·.id)
      · obtain ⟨f', hf', hid⟩ := List.mem_map.mp hgid
        have := ih (stepItem cfg readF wfail s f) f' hf'
          (by rw [hid]; exact stepItem_presence _ _ _ _ _ _ hp)
        rw [hid] at this
        exact this
      · rw [runBatch_cons, runBatch_findById_notin _ _ _ _ _ _ hgid]
        exact stepItem_self_terminal _ _ _ _ _ hp
    · exact ih _ f hf (stepItem_presence _ _ _ _ _ _ hp)

/-- A failing source read rewrites the item's own entry into `error`
carrying the failure message, and leaves the destination untouched. -/
theorem stepItem_read_error (cfg : GlobalConfig) (readF : String → Except String Nat)
    (wfail : String → Nat → Option String) (s : BatchState) (f : FileItem) (msg : String)
    (hr : readF f.id = .error msg) :
    (stepItem cfg readF wfail s f).dest = s.dest ∧
    findById (stepItem cfg readF wfail s f).files f.id =
      (findById s.files f.id).map
        (fun u => { u with status := .error, errorMessage := some msg }) := by
  rw [stepItem_eq_error cfg readF wfail s f msg hr]
  refine ⟨rfl, ?_⟩
  rw [findById_setById_self f.id
      (fun u => { u with status := .error, errorMessage := some msg }) _ (fun u => rfl),
    findById_setById_self f.id (fun u => { u with status := .processing }) _ (fun u => rfl),
    Option.map_map]
  rfl

theorem runBatch_visible_read_error (cfg : GlobalConfig) (readF : String → Except String Nat)
    (wfail : String → Nat → Option String) :
    ∀ (v : List FileItem) (s : BatchState) (f : FileItem) (msg : String), f ∈ v →
      readF f.id = .error msg →
      (findById s.files f.id).isSome = true →
      ∃ u, findById (runBatch cfg readF wfail v s).files f.id = some u ∧
        u.status = .error ∧ u.errorMessage = some msg := by
  intro v
  induction v with
  | nil => intro s f msg hf; cases hf
  | cons g t ih =>
    intro s f msg hf hr hp
    rcases List.mem_cons.mp hf with rfl | hf
    · by_cases hgid : f.id ∈ t.map (·.id)
      · obtain ⟨f', hf', hid⟩ := List.mem_map.mp hgid
        have := ih (stepItem cfg readF wfail s f) f' msg hf'
          (by rw [hid]; exact hr)
          (by rw [hid]; exact stepItem_presence _ _ _ _ _ _ hp)
        rw [hid] at this
        exact this
      · rw [runBatch_cons, runBatch_findById_notin _ _ _ _ _ _ hgid]
        obtain ⟨u0, hu0⟩ := Option.isSome_iff_exists.mp hp
        obtain ⟨_, heq⟩ := stepItem_read_error cfg readF wfail s f msg hr
        exact ⟨_, by rw [heq, hu0]; rfl, rfl, rfl⟩
    · exact ih _ f msg hf hr (stepItem_presence _ _ _ _ _ _ hp)

theorem destLookup_destWrite_self (d : List (String × Nat)) (n : String) (c : Nat) :
    destLookup (destWrite d n c) n = some c := by
  induction d with
  | nil => simp [destWrite, destLookup]
  | cons e rest ih =>
    obtain ⟨m, v⟩ := e
    simp only [destWrite]
    by_cases h : m = n
    · subst h
      rw [if_pos rfl]
      simp [destLookup]
    · rw [if_neg h]
      simp [destLookup, h, ih]

theorem destLookup_destWrite_ne (d : List (String × Nat)) (n m : String) (c : Nat)
    (hne : m ≠ n) : destLookup (destWrite d n c) m = destLookup d m := by
  induction d with
  | nil =>
    have : n ≠ m := fun h => hne h.symm
    simp [destWrite, destLookup, this]
  | cons e rest ih =>
    obtain ⟨k, v⟩ := e
    simp only [destWrite]
    by_cases h : k = n
    · subst h
      rw [if_pos rfl]
      have hkm : k ≠ m := fun hc => hne hc.symm
      simp [destLookup, hkm]
    · rw [if_neg h]
      by_cases hk : k = m
      · simp [destLookup, hk]
      · simp [destLookup, hk, ih]

theorem destWrite_isSome_mono (d : List (String × Nat)) (n m : String) (c : Nat)
    (h : (destLookup d m).isSome = true) :
    (destLookup (destWrite d n c) m).isSome = true := by
  by_cases hm : m = n
  · subst hm
    rw [destLookup_destWrite_self]
    rfl
  · rw [destLookup_destWrite_ne d n m c hm]
    exact h

/-- A name whose every write attempt fails never appears in the destination:
no step can put it there (the success branch would need a `none` from the
write capability), and no step removes existing absence guarantees. -/
theorem stepItem_dest_lookup_false (cfg : GlobalConfig) (readF : String → Except String Nat)
    (wfail : String → Nat → Option String) (s : BatchState) (g : FileItem)
    (name msg : String)
    (hlook : (destLookup s.dest name).isSome = false)
    (hw : ∀ c', wfail name c' = some msg) :
    (destLookup (stepItem cfg readF wfail s g).dest name).isSome = false := by
  cases hread : readF g.id with
  | error m => rw [stepItem_eq_error _ _ _ _ _ _ hread]; exact hlook
  | ok c =>
    cases hcond : ((destLookup s.dest (getFinalName cfg g)).isSome && !cfg.overwrite) with
    | true => rw [stepItem_eq_skipC _ _ _ _ _ _ hread hcond]; exact hlook
    | false =>
      cases hwx : wfail (getFinalName cfg g) c with
      | some m => rw [stepItem_eq_werr _ _ _ _ _ _ _ hread hcond hwx]; exact hlook
      | none =>
        rw [stepItem_eq_write _ _ _ _ _ _ hread hcond hwx]
        by_cases hn : getFinalName cfg g = name
        · exfalso
          rw [hn, hw c] at hwx
          cases hwx
        · rw [destLookup_destWrite_ne s.dest (getFinalName cfg g) name c (fun h => hn h.symm)]
          exact hlook

theorem runBatch_dest_lookup_false (cfg : GlobalConfig) (readF : String → Except String Nat)
    (wfail : String → Nat → Option String) (name msg : String)
    (hw : ∀ c', wfail name c' = some msg) :
    ∀ (v : List FileItem) (s : BatchState),
      (destLookup s.dest name).isSome = false →
      (destLookup (runBatch cfg readF wfail v s).dest name).isSome = false := by
  intro v
  induction v with
  | nil => intro s h; exact h
  | cons g t ih =>
    intro s h
    exact ih _ (stepItem_dest_lookup_false cfg readF wfail s g name msg h hw)

/-- A visible item that reads successfully, whose final name is absent from
the destination and whose every write attempt fails with `msg`, ends the
batch in `error` carrying `msg` (visible ids pairwise distinct). -/
theorem runBatch_visible_write_error (cfg : GlobalConfig) (readF : String → Except String Nat)
    (wfail : String → Nat → Option String) (v : List FileItem) (s : BatchState)
    (f : FileItem) (c : Nat) (msg : String)
    (hf : f ∈ v) (hnd : (v.map (·.id)).Nodup)
    (hr : readF f.id = .ok c)
    (hlook : (destLookup s.dest (getFinalName cfg f)).isSome = false)
    (hw : ∀ c', wfail (getFinalName cfg f) c' = some msg)
    (hp : (findById s.files f.id).isSome = true) :
    ∃ u, findById (runBatch cfg readF wfail v s).files f.id = some u ∧
      u.status = .error ∧ u.errorMessage = some msg := by
  obtain ⟨v₁, v₂, rfl⟩ := List.append_of_mem hf
  have hni : f.id ∉ v₂.map (·.id) := by
    rw [List.map_append, List.nodup_append] at hnd
    have h2 : f.id ∉ v₂.map (·.id) ∧ (v₂.map (·.id)).Nodup := by
      have h3 := hnd.2.1
      rw [List.map_cons, List.nodup_cons] at h3
      exact h3
    exact h2.1
  rw [runBatch_append, runBatch_cons, runBatch_findById_notin _ _ _ _ _ _ hni]
  have hlook₁ : (destLookup (runBatch cfg readF wfail v₁ s).dest
      (getFinalName cfg f)).isSome = false :=
    runBatch_dest_lookup_false cfg readF wfail _ msg hw v₁ s hlook
  have hp₁ : (findById (runBatch cfg readF wfail v₁ s).files f.id).isSome = true :=
    runBatch_presence cfg readF wfail v₁ s f.id hp
  have hcond : ((destLookup (runBatch cfg readF wfail v₁ s).dest
      (getFinalName cfg f)).isSome && !cfg.overwrite) = false := by
    rw [hlook₁]
    rfl
  rw [stepItem_eq_werr cfg readF wfail _ f c msg hr hcond (hw c)]
  obtain ⟨u0, hu0⟩ := Option.isSome_iff_exists.mp hp₁
  rw [findById_setById_self f.id
      (fun u => { u with status := .error, errorMessage := some msg }) _ (fun u => rfl),
    findById_setById_self f.id (fun u => { u with status := .processing }) _
      (fun u => rfl), Option.map_map, hu0]
  exact ⟨_, rfl, rfl, rfl⟩

/-- Claim C3: a read or write failure on one item is contained to that item:
its entry alone becomes `error` carrying the underlying failure message — for
a failing source read (whose outcome is forced no matter the rest of the
state), and for a failing write (an item that reads successfully, is not
skipped because its final name is absent from the destination, and whose
write attempts fail with the message, e.g. a filesystem-illegal name) —
a step never touches entries with a different id, and every visible item
still reaches a terminal state — no per-item failure aborts the batch. -/
theorem batch_failure_isolation (cfg : GlobalConfig) (readF : String → Except String Nat)
    (wfail : String → Nat → Option String) (visible files : List FileItem)
    (dest : List (String × Nat)) :
    (∀ (f : FileItem) (msg : String), f ∈ visible → readF f.id = .error msg →
      (findById files f.id).isSome = true →
      ∃ u, findById (runBatch cfg readF wfail visible ⟨files, dest⟩).files f.id = some u ∧
        u.status = .error ∧ u.errorMessage = some msg) ∧
    (∀ (f : FileItem) (c : Nat) (msg : String), f ∈ visible →
      (visible.map (·.id)).Nodup →
      readF f.id = .ok c →
      (destLookup dest (getFinalName cfg f)).isSome = false →
      (∀ c', wfail (getFinalName cfg f) c' = some msg) →
      (findById files f.id).isSome = true →
      ∃ u, findById (runBatch cfg readF wfail visible ⟨files, dest⟩).files f.id = some u ∧
        u.status = .error ∧ u.errorMessage = some msg) ∧
    (∀ (s : BatchState) (f : FileItem) (j : String), j ≠ f.id →
      findById (stepItem cfg readF wfail s f).files j = findById s.files j) ∧
    (∀ f : FileItem, f ∈ visible → (findById files f.id).isSome = true →
      ∃ u, findById (runBatch cfg readF wfail visible ⟨files, dest⟩).files f.id = some u ∧
        u.status.isTerminal = true) :=
  ⟨fun f msg hf hr hp => runBatch_visible_read_error cfg readF wfail visible _ f msg hf hr hp,
   fun f c msg hf hnd hr hlook hw hp =>
     runBatch_visible_write_error cfg readF wfail visible _ f c msg hf hnd hr hlook hw hp,
   fun s f j hj => stepItem_findById_ne cfg readF wfail s f j hj,
   fun f hf hp => runBatch_visible_terminal cfg readF wfail visible _ f hf hp⟩

/-- Witness for C3 at concrete inputs: a two-item batch in which the first
item's read fails leaves the first item in `error` with the read message
while the second still reaches a terminal state; and a batch whose write
capability fails with "disk full" leaves its item in `error` with that
message. -/
theorem batch_failure_isolation_witness :
    (∃ u, findById (runBatch ⟨"", "", "", false, "", ""⟩
        (fun _ => .error "boom") (fun _ _ => none)
        [⟨"a", "a.txt", 1, 0, "", "a", "", "", "", .pending, none⟩,
         ⟨"b", "b.txt", 1, 0, "", "b", "", "", "", .pending, none⟩]
        ⟨[⟨"a", "a.txt", 1, 0, "", "a", "", "", "", .pending, none⟩,
          ⟨"b", "b.txt", 1, 0, "", "b", "", "", "", .pending, none⟩], []⟩).files "a" = some u ∧
      u.status = .error ∧ u.errorMessage = some "boom") ∧
    (∃ u, findById (runBatch ⟨"", "", "", false, "", ""⟩
        (fun _ => .error "boom") (fun _ _ => none)
        [⟨"a", "a.txt", 1, 0, "", "a", "", "", "", .pending, none⟩,
         ⟨"b", "b.txt", 1, 0, "", "b", "", "", "", .pending, none⟩]
        ⟨[⟨"a", "a.txt", 1, 0, "", "a", "", "", "", .pending, none⟩,
          ⟨"b", "b.txt", 1, 0, "", "b", "", "", "", .pending, none⟩], []⟩).files "b" = some u ∧
      u.status.isTerminal = true) ∧
    (∃ u, findById (runBatch ⟨"", "", "", false, "", ""⟩
        (fun _ => .ok 1) (fun _ _ => some "disk full")
        [⟨"a", "a.txt", 1, 0, "", "a", "", "", "", .pending, none⟩]
        ⟨[⟨"a", "a.txt", 1, 0, "", "a", "", "", "", .pending, none⟩], []⟩).files "a" = some u ∧
      u.status = .error ∧ u.errorMessage = some "disk full") :=
  ⟨(batch_failure_isolation _ _ _ _ _ _).1
      ⟨"a", "a.txt", 1, 0, "", "a", "", "", "", .pending, none⟩ "boom"
      (List.mem_cons_self _ _) rfl (by decide),
   (batch_failure_isolation _ _ _ _ _ _).2.2.2
      ⟨"b", "b.txt", 1, 0, "", "b", "", "", "", .pending, none⟩
      (by simp) (by decide),
   (batch_failure_isolation _ _ _ _ _ _).2.1
      ⟨"a", "a.txt", 1, 0, "", "a", "", "", "", .pending, none⟩ 1 "disk full"
      (List.mem_cons_self _ _) (by decide) rfl (by decide) (fun c' => rfl) (by decide)⟩

/-- Claim C7: the batch executor iterates exactly the visible snapshot
captured at batch start (`runBatch` folds over that list in order, by
definition), and every collection entry whose id is outside the snapshot is
left byte-for-byte unchanged — same position, same fields, same status. -/
theorem batch_frame (cfg : GlobalConfig) (readF : String → Except String Nat)
    (wfail : String → Nat → Option String) (visible files : List FileItem)
    (dest : List (String × Nat)) :
    (runBatch cfg readF wfail visible ⟨files, dest⟩).files.length = files.length ∧
    (∀ (i : Nat) (x : FileItem), files[i]? = some x → x.id ∉ visible.map (·.id) →
      (runBatch cfg readF wfail visible ⟨files, dest⟩).files[i]? = some x) :=
  ⟨runBatch_files_length .., fun i x hx hni => runBatch_getElem?_notin _ _ _ _ _ i x hx hni⟩

/-- Witness for C7 at a concrete input: an item filtered out of the visible
set stays `pending` and untouched after the batch. -/
theorem batch_frame_witness :
    (runBatch ⟨"", "", "", false, "", ""⟩ (fun _ => .ok 1) (fun _ _ => none)
        [⟨"a", "a.txt", 1, 0, "", "a", "", "", "", .pending, none⟩]
        ⟨[⟨"a", "a.txt", 1, 0, "", "a", "", "", "", .pending, none⟩,
          ⟨"c", "c.txt", 1, 0, "", "c", "", "", "", .pending, none⟩], []⟩).files[1]? =
      some ⟨"c", "c.txt", 1, 0, "", "c", "", "", "", .pending, none⟩ :=
  (batch_frame _ _ _ _ _ _).2 1 _ (by decide) (by decide)

theorem stepItem_dest_mono (cfg : GlobalConfig) (readF : String → Except String Nat)
    (wfail : String → Nat → Option String) (s : BatchState) (f : FileItem) (m : String)
    (h : (destLookup s.dest m).isSome = true) :
    (destLookup (stepItem cfg readF wfail s f).dest m).isSome = true := by
  cases hread : readF f.id with
  | error msg => rw [stepItem_eq_error cfg readF wfail s f msg hread]; exact h
  | ok c =>
    cases hcond : ((destLookup s.dest (getFinalName cfg f)).isSome && !cfg.overwrite) with
    | true => rw [stepItem_eq_skipC cfg readF wfail s f c hread hcond]; exact h
    | false =>
      cases hw : wfail (getFinalName cfg f) c with
      | some msg => rw [stepItem_eq_werr cfg readF wfail s f c msg hread hcond hw]; exact h
      | none =>
        rw [stepItem_eq_write cfg readF wfail s f c hread hcond hw]
        exact destWrite_isSome_mono _ _ _ _ h

theorem runBatch_dest_mono (cfg : GlobalConfig) (readF : String → Except String Nat)
    (wfail : String → Nat → Option String) (v : List FileItem) (s : BatchState) (m : String)
    (h : (destLookup s.dest m).isSome = true) :
    (destLookup (runBatch cfg readF wfail v s).dest m).isSome = true := by
  induction v generalizing s with
  | nil => exact h
  | cons g t ih => exact ih _ (stepItem_dest_mono _ _ _ _ _ _ h)

/-- Run postcondition: after a batch, every visible item that reads
successfully either sees its final name in the destination or its write is
doomed to fail — the disjunction run 2 needs to prove it writes nothing. -/
theorem runBatch_post (cfg : GlobalConfig) (readF : String → Except String Nat)
    (wfail : String → Nat → Option String) :
    ∀ (v : List FileItem) (s : BatchState) (f : FileItem) (c : Nat), f ∈ v →
      readF f.id = .ok c →
      ((destLookup (runBatch cfg readF wfail v s).dest (getFinalName cfg f)).isSome = true ∨
        wfail (getFinalName cfg f) c ≠ none) := by
  intro v
  induction v with
  | nil => intro s f c hf; cases hf
  | cons g t ih =>
    intro s f c hf hr
    rcases List.mem_cons.mp hf with rfl | hf
    · rw [runBatch_cons]
      cases hcond : ((destLookup s.dest (getFinalName cfg f)).isSome && !cfg.overwrite) with
      | true =>
        left
        rw [stepItem_eq_skipC cfg readF wfail s f c hr hcond]
        have he : (destLookup s.dest (getFinalName cfg f)).isSome = true := by
          cases hx : (destLookup s.dest (getFinalName cfg f)).isSome with
          | true => rfl
          | false => rw [hx] at hcond; simp at hcond
        exact runBatch_dest_mono cfg readF wfail t _ _ he
      | false =>
        cases hw : wfail (getFinalName cfg f) c with
        | some msg => exact Or.inr (by simp [hw])
        | none =>
          left
          rw [stepItem_eq_write cfg readF wfail s f c hr hcond hw]
          exact runBatch_dest_mono cfg readF wfail t _ _
            (by rw [destLookup_destWrite_self]; rfl)
    · exact ih _ f c hf hr

/-- After a batch over a visible set with pairwise-distinct ids, an item whose
entry ended in `success` must have read successfully and must see its final
name in the resulting destination. -/
theorem runBatch_success_facts (cfg : GlobalConfig) (readF : String → Except String Nat)
    (wfail : String → Nat → Option String) :
    ∀ (v : List FileItem) (s : BatchState) (f : FileItem), f ∈ v →
      (v.map (·.id)).Nodup →
      (∃ u, findById (runBatch cfg readF wfail v s).files f.id = some u ∧ u.status = .success) →
      (∃ c, readF f.id = .ok c) ∧
        (destLookup (runBatch cfg readF wfail v s).dest (getFinalName cfg f)).isSome = true := by
  intro v
  induction v with
  | nil => intro s f hf; cases hf
  | cons g t ih =>
    intro s f hf hnd hsucc
    have hnd' : g.id ∉ t.map (·.id) ∧ (t.map (·.id)).Nodup := by
      rw [List.map_cons, List.nodup_cons] at hnd
      exact hnd
    rcases List.mem_cons.mp hf with rfl | hf
    · have hnotin : f.id ∉ t.map (·.id) := hnd'.1
      rw [runBatch_cons] at hsucc ⊢
      rw [runBatch_findById_notin _ _ _ _ _ _ hnotin] at hsucc
      obtain ⟨u, hu, hust⟩ := hsucc
      cases hread : readF f.id with
      | error msg =>
        exfalso
        obtain ⟨_, heq⟩ := stepItem_read_error cfg readF wfail s f msg hread
        rw [heq] at hu
        rcases hx : findById s.files f.id with _ | u0
        · rw [hx] at hu; cases hu
        · rw [hx] at hu
          simp only [Option.map_some', Option.some.injEq] at hu
          rw [← hu] at hust
          cases hust
      | ok c =>
        cases hcond : ((destLookup s.dest (getFinalName cfg f)).isSome && !cfg.overwrite) with
        | true =>
          exfalso
          rw [stepItem_eq_skipC cfg readF wfail s f c hread hcond] at hu
          rw [findById_setById_self f.id
              (fun u => { u with status := .skipped, errorMessage := some "Ya existe" }) _
              (fun u => rfl),
            findById_setById_self f.id (fun u => { u with status := .processing }) _
              (fun u => rfl), Option.map_map] at hu
          rcases hx : findById s.files f.id with _ | u0
          · rw [hx] at hu; cases hu
          · rw [hx] at hu
            simp only [Option.map_some', Option.some.injEq, Function.comp] at hu
            rw [← hu] at hust
            cases hust
        | false =>
          cases hw : wfail (getFinalName cfg f) c with
          | some msg =>
            exfalso
            rw [stepItem_eq_werr cfg readF wfail s f c msg hread hcond hw] at hu
            rw [findById_setById_self f.id
                (fun u => { u with status := .error, errorMessage := some msg }) _
                (fun u => rfl),
              findById_setById_self f.id (fun u => { u with status := .processing }) _
                (fun u => rfl), Option.map_map] at hu
            rcases hx : findById s.files f.id with _ | u0
            · rw [hx] at hu; cases hu
            · rw [hx] at hu
              simp only [Option.map_some', Option.some.injEq, Function.comp] at hu
              rw [← hu] at hust
              cases hust
          | none =>
            refine ⟨⟨c, rfl⟩, ?_⟩
            rw [stepItem_eq_write cfg readF wfail s f c hread hcond hw]
            exact runBatch_dest_mono cfg readF wfail t _ _
              (by rw [destLookup_destWrite_self]; rfl)
    · exact ih _ f hf hnd'.2 hsucc

/-- With overwrite disallowed, a step whose item satisfies the run
postcondition writes nothing to the destination. -/
theorem stepItem_dest_eq_of_post (cfg : GlobalConfig) (readF : String → Except String Nat)
    (wfail : String → Nat → Option String) (s : BatchState) (f : FileItem)
    (hov : cfg.overwrite = false)
    (hpost : ∀ c, readF f.id = .ok c →
      ((destLookup s.dest (getFinalName cfg f)).isSome = true ∨
        wfail (getFinalName cfg f) c ≠ none)) :
    (stepItem cfg readF wfail s f).dest = s.dest := by
  cases hread : readF f.id with
  | error msg => rw [stepItem_eq_error _ _ _ _ _ _ hread]
  | ok c =>
    cases hcond : ((destLookup s.dest (getFinalName cfg f)).isSome && !cfg.overwrite) with
    | true => rw [stepItem_eq_skipC _ _ _ _ _ _ hread hcond]
    | false =>
      have hns : (destLookup s.dest (getFinalName cfg f)).isSome = false := by
        cases hx : (destLookup s.dest (getFinalName cfg f)).isSome with
        | false => rfl
        | true => rw [hx, hov] at hcond; simp at hcond
      rcases hpost c hread with hs | hw
      · rw [hns] at hs; cases hs
      · cases hwx : wfail (getFinalName cfg f) c with
        | none => exact absurd hwx hw
        | some msg => rw [stepItem_eq_werr _ _ _ _ _ _ _ hread hcond hwx]

/-- With overwrite disallowed, a batch whose every item satisfies the run
postcondition leaves the destination untouched. -/
theorem runBatch_dest_eq_of_post (cfg : GlobalConfig) (readF : String → Except String Nat)
    (wfail : String → Nat → Option String) (hov : cfg.overwrite = false) :
    ∀ (v : List FileItem) (s : BatchState),
      (∀ f ∈ v, ∀ c, readF f.id = .ok c →
        ((destLookup s.dest (getFinalName cfg f)).isSome = true ∨
          wfail (getFinalName cfg f) c ≠ none)) →
      (runBatch cfg readF wfail v s).dest = s.dest := by
  intro v
  induction v with
  | nil => intro s _; rfl
  | cons g t ih =>
    intro s hpost
    have hstep : (stepItem cfg readF wfail s g).dest = s.dest :=
      stepItem_dest_eq_of_post cfg readF wfail s g hov
        (fun c hr => hpost g (List.mem_cons_self g t) c hr)
    rw [runBatch_cons,
      ih (stepItem cfg readF wfail s g)
        (fun f hf c hr => by rw [hstep]; exact hpost f (List.mem_cons_of_mem g hf) c hr),
      hstep]

/-- With overwrite disallowed, a batch whose every item satisfies the run
postcondition turns any item that reads successfully and already sees its
final name in the destination into `skipped` with message "Ya existe". -/
theorem runBatch_skip_of_existing (cfg : GlobalConfig) (readF : String → Except String Nat)
    (wfail : String → Nat → Option String) (hov : cfg.overwrite = false) :
    ∀ (v : List FileItem) (s : BatchState) (f : FileItem), f ∈ v →
      (v.map (·.id)).Nodup →
      (∀ f' ∈ v, ∀ c, readF f'.id = .ok c →
        ((destLookup s.dest (getFinalName cfg f')).isSome = true ∨
          wfail (getFinalName cfg f') c ≠ none)) →
      (∃ c, readF f.id = .ok c) →
      (destLookup s.dest (getFinalName cfg f)).isSome = true →
      (findById s.files f.id).isSome = true →
      ∃ u, findById (runBatch cfg readF wfail v s).files f.id = some u ∧
        u.status = .skipped ∧ u.errorMessage = some "Ya existe" := by
  intro v
  induction v with
  | nil => intro s f hf; cases hf
  | cons g t ih =>
    intro s f hf hnd hpost hread hlook hp
    have hnd' : g.id ∉ t.map (·.id) ∧ (t.map (·.id)).Nodup := by
      rw [List.map_cons, List.nodup_cons] at hnd
      exact hnd
    have hstep : (stepItem cfg readF wfail s g).dest = s.dest :=
      stepItem_dest_eq_of_post cfg readF wfail s g hov
        (fun c hr => hpost g (List.mem_cons_self g t) c hr)
    rcases List.mem_cons.mp hf with rfl | hf
    · obtain ⟨c, hr⟩ := hread
      rw [runBatch_cons, runBatch_findById_notin _ _ _ _ _ _ hnd'.1]
      rw [stepItem_eq_skip cfg readF wfail s f c hr hlook hov]
      obtain ⟨u0, hu0⟩ := Option.isSome_iff_exists.mp hp
      rw [findById_setById_self f.id
          (fun u => { u with status := .skipped, errorMessage := some "Ya existe" }) _
          (fun u => rfl),
        findById_setById_self f.id (fun u => { u with status := .processing }) _
          (fun u => rfl), Option.map_map, hu0]
      exact ⟨_, rfl, rfl, rfl⟩
    · exact ih (stepItem cfg readF wfail s g) f hf hnd'.2
        (fun f' hf' c hr => by rw [hstep]; exact hpost f' (List.mem_cons_of_mem g hf') c hr)
        hread (by rw [hstep]; exact hlook)
        (stepItem_presence _ _ _ _ _ _ hp)

/-- Claim C2 (amended): with overwrite disallowed, an item that reads
successfully and whose computed final name already exists in the destination
is skipped with message "Ya existe" and nothing is written; consequently,
running the batch a second time over the same visible snapshot (with
pairwise-distinct ids, all present in the collection) alters no destination
entry and turns every previously-succeeded item into `skipped` with message
"Ya existe". -/
theorem collision_skip_and_idempotence (cfg : GlobalConfig)
    (readF : String → Except String Nat) (wfail : String → Nat → Option String) :
    (∀ (s : BatchState) (f : FileItem) (c : Nat),
      cfg.overwrite = false → readF f.id = .ok c →
      (destLookup s.dest (getFinalName cfg f)).isSome = true →
      (findById s.files f.id).isSome = true →
      (stepItem cfg readF wfail s f).dest = s.dest ∧
      ∃ u, findById (stepItem cfg readF wfail s f).files f.id = some u ∧
        u.status = .skipped ∧ u.errorMessage = some "Ya existe") ∧
    (∀ (visible files : List FileItem) (dest : List (String × Nat)),
      cfg.overwrite = false → (visible.map (·.id)).Nodup →
      (∀ f ∈ visible, (findById files f.id).isSome = true) →
      (runBatch cfg readF wfail visible
          (runBatch cfg readF wfail visible ⟨files, dest⟩)).dest =
        (runBatch cfg readF wfail visible ⟨files, dest⟩).dest ∧
      ∀ f ∈ visible,
        (∃ u, findById (runBatch cfg readF wfail visible ⟨files, dest⟩).files f.id = some u ∧
          u.status = .success) →
        ∃ u', findById (runBatch cfg readF wfail visible
            (runBatch cfg readF wfail visible ⟨files, dest⟩)).files f.id = some u' ∧
          u'.status = .skipped ∧ u'.errorMessage = some "Ya existe") := by
  constructor
  · intro s f c hov hr hlook hp
    rw [stepItem_eq_skip cfg readF wfail s f c hr hlook hov]
    refine ⟨rfl, ?_⟩
    obtain ⟨u0, hu0⟩ := Option.isSome_iff_exists.mp hp
    rw [findById_setById_self f.id
        (fun u => { u with status := .skipped, errorMessage := some "Ya existe" }) _
        (fun u => rfl),
      findById_setById_self f.id (fun u => { u with status := .processing }) _
        (fun u => rfl), Option.map_map, hu0]
    exact ⟨_, rfl, rfl, rfl⟩
  · intro visible files dest hov hnd hpres
    have hpost : ∀ f ∈ visible, ∀ c, readF f.id = .ok c →
        ((destLookup (runBatch cfg readF wfail visible ⟨files, dest⟩).dest
            (getFinalName cfg f)).isSome = true ∨
          wfail (getFinalName cfg f) c ≠ none) :=
      fun f hf c hr => runBatch_post cfg readF wfail visible ⟨files, dest⟩ f c hf hr
    refine ⟨runBatch_dest_eq_of_post cfg readF wfail hov visible _ hpost, ?_⟩
    intro f hf hsucc
    obtain ⟨⟨c, hr⟩, hlook⟩ :=
      runBatch_success_facts cfg readF wfail visible ⟨files, dest⟩ f hf hnd hsucc
    exact runBatch_skip_of_existing cfg readF wfail hov visible _ f hf hnd hpost
      ⟨c, hr⟩ hlook
      (runBatch_presence cfg readF wfail visible _ f.id (hpres f hf))

/-- Witness for the amended C2 at a concrete input: one item copied on the
first run is skipped with message "Ya existe" on the second, destination
unchanged. -/
theorem collision_skip_and_idempotence_witness :
    (runBatch ⟨"", "", "", false, "", ""⟩ (fun _ => .ok 1) (fun _ _ => none)
        [⟨"a", "x.txt", 1, 0, "", "x", "", "", "txt", .pending, none⟩]
        (runBatch ⟨"", "", "", false, "", ""⟩ (fun _ => .ok 1) (fun _ _ => none)
          [⟨"a", "x.txt", 1, 0, "", "x", "", "", "txt", .pending, none⟩]
          ⟨[⟨"a", "x.txt", 1, 0, "", "x", "", "", "txt", .pending, none⟩], []⟩)).dest =
      (runBatch ⟨"", "", "", false, "", ""⟩ (fun _ => .ok 1) (fun _ _ => none)
        [⟨"a", "x.txt", 1, 0, "", "x", "", "", "txt", .pending, none⟩]
        ⟨[⟨"a", "x.txt", 1, 0, "", "x", "", "", "txt", .pending, none⟩], []⟩).dest ∧
    ∀ f ∈ [(⟨"a", "x.txt", 1, 0, "", "x", "", "", "txt", .pending, none⟩ : FileItem)],
      (∃ u, findById (runBatch ⟨"", "", "", false, "", ""⟩ (fun _ => .ok 1) (fun _ _ => none)
          [⟨"a", "x.txt", 1, 0, "", "x", "", "", "txt", .pending, none⟩]
          ⟨[⟨"a", "x.txt", 1, 0, "", "x", "", "", "txt", .pending, none⟩], []⟩).files f.id = some u ∧
        u.status = .success) →
      ∃ u', findById (runBatch ⟨"", "", "", false, "", ""⟩ (fun _ => .ok 1) (fun _ _ => none)
          [⟨"a", "x.txt", 1, 0, "", "x", "", "", "txt", .pending, none⟩]
          (runBatch ⟨"", "", "", false, "", ""⟩ (fun _ => .ok 1) (fun _ _ => none)
            [⟨"a", "x.txt", 1, 0, "", "x", "", "", "txt", .pending, none⟩]
            ⟨[⟨"a", "x.txt", 1, 0, "", "x", "", "", "txt", .pending, none⟩], []⟩)).files f.id = some u' ∧
        u'.status = .skipped ∧ u'.errorMessage = some "Ya existe" :=
  (collision_skip_and_idempotence ⟨"", "", "", false, "", ""⟩ (fun _ => .ok 1)
      (fun _ _ => none)).2
    [⟨"a", "x.txt", 1, 0, "", "x", "", "", "txt", .pending, none⟩]
    [⟨"a", "x.txt", 1, 0, "", "x", "", "", "txt", .pending, none⟩] []
    rfl (by decide) (by decide)

/-- Counterexample to C2 as stated: at a concrete collision with overwrite
disallowed the item is indeed skipped, but its `errorMessage` is the source
literal "Ya existe", not "already exists" as the claim demands; moreover an
item whose destination name exists but whose source read fails ends in
`error`, not `skipped` — the source is read before the collision check. -/
theorem collision_message_counterexample :
    ((runBatch ⟨"", "", "", false, "", ""⟩ (fun _ => .ok 1) (fun _ _ => none)
        [⟨"a", "x.txt", 1, 0, "", "x", "", "", "txt", .pending, none⟩]
        ⟨[⟨"a", "x.txt", 1, 0, "", "x", "", "", "txt", .pending, none⟩],
          [("x.txt", 7)]⟩).files =
      [⟨"a", "x.txt", 1, 0, "", "x", "", "", "txt", .skipped, some "Ya existe"⟩] ∧
    some "Ya existe" ≠ some "already exists") ∧
    ((runBatch ⟨"", "", "", false, "", ""⟩ (fun _ => .error "io") (fun _ _ => none)
        [⟨"a", "x.txt", 1, 0, "", "x", "", "", "txt", .pending, none⟩]
        ⟨[⟨"a", "x.txt", 1, 0, "", "x", "", "", "txt", .pending, none⟩],
          [("x.txt", 7)]⟩).files =
      [⟨"a", "x.txt", 1, 0, "", "x", "", "", "txt", .error, some "io"⟩] ∧
    Status.error ≠ Status.skipped) := by
  exact ⟨⟨by decide, by decide⟩, ⟨by decide, by decide⟩⟩

/-- Counterexample to C6 as stated: an item already in the terminal state
`success` is fed to a later batch run (it is in the visible set); with its
destination name present and overwrite disallowed the run moves it to
`skipped` — a batch run, not only a rescan, leaves a terminal state. -/
theorem terminal_left_by_second_run_counterexample :
    (⟨"a", "x.txt", 1, 0, "", "x", "", "", "txt", .success, none⟩ : FileItem).status.isTerminal
        = true ∧
    (runBatch ⟨"", "", "", false, "", ""⟩ (fun _ => .ok 1) (fun _ _ => none)
        [⟨"a", "x.txt", 1, 0, "", "x", "", "", "txt", .success, none⟩]
        ⟨[⟨"a", "x.txt", 1, 0, "", "x", "", "", "txt", .success, none⟩],
          [("x.txt", 7)]⟩).files =
      [⟨"a", "x.txt", 1, 0, "", "x", "", "", "txt", .skipped, some "Ya existe"⟩] ∧
    Status.skipped ≠ Status.success := by
  refine ⟨rfl, by decide, by decide⟩

/-- Claim C6 (amended): within a single batch run, an item's entry is fixed
once its own step has run — the remaining steps of the run never touch it —
and that step leaves it in a terminal state; only a fresh rescan (which
rebuilds the collection) or a subsequent batch run that re-processes the
item can change it afterwards. -/
theorem terminal_stable_within_run (cfg : GlobalConfig)
    (readF : String → Except String Nat) (wfail : String → Nat → Option String)
    (v₁ v₂ : List FileItem) (f : FileItem) (s : BatchState)
    (hni : f.id ∉ v₂.map (·.id)) :
    findById (runBatch cfg readF wfail (v₁ ++ f :: v₂) s).files f.id =
      findById (stepItem cfg readF wfail (runBatch cfg readF wfail v₁ s) f).files f.id ∧
    ((findById (runBatch cfg readF wfail v₁ s).files f.id).isSome = true →
      ∃ u, findById (stepItem cfg readF wfail (runBatch cfg readF wfail v₁ s) f).files f.id =
          some u ∧ u.status.isTerminal = true) := by
  constructor
  · rw [runBatch_append, runBatch_cons, runBatch_findById_notin _ _ _ _ _ _ hni]
  · exact fun hp => stepItem_self_terminal _ _ _ _ _ hp

/-- Witness for the amended C6 at a concrete input: after its own step the
item's entry is final for the rest of the run and terminal. -/
theorem terminal_stable_within_run_witness :
    findById (runBatch ⟨"", "", "", false, "", ""⟩ (fun _ => .ok 1) (fun _ _ => none)
        ([] ++ ⟨"a", "x.txt", 1, 0, "", "x", "", "", "txt", .pending, none⟩ :: [])
        ⟨[⟨"a", "x.txt", 1, 0, "", "x", "", "", "txt", .pending, none⟩], []⟩).files "a" =
      findById (stepItem ⟨"", "", "", false, "", ""⟩ (fun _ => .ok 1) (fun _ _ => none)
        (runBatch ⟨"", "", "", false, "", ""⟩ (fun _ => .ok 1) (fun _ _ => none) []
          ⟨[⟨"a", "x.txt", 1, 0, "", "x", "", "", "txt", .pending, none⟩], []⟩)
        ⟨"a", "x.txt", 1, 0, "", "x", "", "", "txt", .pending, none⟩).files "a" ∧
    ∃ u, findById (stepItem ⟨"", "", "", false, "", ""⟩ (fun _ => .ok 1) (fun _ _ => none)
        (runBatch ⟨"", "", "", false, "", ""⟩ (fun _ => .ok 1) (fun _ _ => none) []
          ⟨[⟨"a", "x.txt", 1, 0, "", "x", "", "", "txt", .pending, none⟩], []⟩)
        ⟨"a", "x.txt", 1, 0, "", "x", "", "", "txt", .pending, none⟩).files "a" = some u ∧
      u.status.isTerminal = true :=
  ⟨(terminal_stable_within_run ⟨"", "", "", false, "", ""⟩ (fun _ => .ok 1) (fun _ _ => none)
      [] [] ⟨"a", "x.txt", 1, 0, "", "x", "", "", "txt", .pending, none⟩
      ⟨[⟨"a", "x.txt", 1, 0, "", "x", "", "", "txt", .pending, none⟩], []⟩ (by decide)).1,
   (terminal_stable_within_run ⟨"", "", "", false, "", ""⟩ (fun _ => .ok 1) (fun _ _ => none)
      [] [] ⟨"a", "x.txt", 1, 0, "", "x", "", "", "txt", .pending, none⟩
      ⟨[⟨"a", "x.txt", 1, 0, "", "x", "", "", "txt", .pending, none⟩], []⟩ (by decide)).2
      (by decide)⟩

end ControlArchivos
